import Mathlib

/-!
# Verification of the MDN numerical core (keras-mdn-layer)

Shallow embedding of the numeric functions in `mdn/__init__.py` over the real
numbers: the scale activation `elu_plus_one_plus_epsilon`, the parameter
splitter `split_mixture_params` (Python slice semantics, including negative
indices), the temperature softmax, the cumulative-sum categorical sampler
(with the uniform draw passed explicitly), the mixture negative-log-likelihood
loss, and `sample_from_output` (with the categorical draw and the standard
normal draws passed explicitly).
-/

open scoped BigOperators

/-- Keras backend epsilon: the small constant `1e-7` added by the scale
activation. -/
def kerasEpsilon : ℝ := 1e-7

/-- `tf.keras.backend.elu` with default alpha: `x` for `x > 0`, else
`exp x - 1`. -/
noncomputable def elu (x : ℝ) : ℝ := if 0 < x then x else Real.exp x - 1

/-- Source: `elu_plus_one_plus_epsilon(x) = elu(x) + 1 + epsilon`. -/
noncomputable def elu_plus_one_plus_epsilon (x : ℝ) : ℝ := elu x + 1 + kerasEpsilon

/-- Python index normalisation for slicing a sequence of length `n`:
a negative index counts from the end (clamped below at 0), a non-negative
index is clamped above at `n`. -/
def pyIdx (n : ℕ) (i : Int) : ℕ :=
  if i < 0 then ((n : Int) + i).toNat else min i.toNat n

/-- Python slice `l[a:b]` (step 1). -/
def pySlice (l : List ℝ) (a b : Int) : List ℝ :=
  (l.take (pyIdx l.length b)).drop (pyIdx l.length a)

/-- Python slice `l[a:]` (step 1, open end). -/
def pySliceFrom (l : List ℝ) (a : Int) : List ℝ :=
  l.drop (pyIdx l.length a)

/-- Source: `split_mixture_params(params, output_dim, num_mixes)` returns
`params[:K*D]`, `params[K*D:2*K*D]`, `params[-K:]` with `D = output_dim`,
`K = num_mixes`.  The source performs no length validation: the three results
are plain Python slices. -/
def split_mixture_params (params : List ℝ) (output_dim num_mixes : ℕ) :
    List ℝ × List ℝ × List ℝ :=
  let mus := pySlice params 0 (num_mixes * output_dim)
  let sigs := pySlice params (num_mixes * output_dim) (2 * num_mixes * output_dim)
  let pi_logits := pySliceFrom params (-(num_mixes : Int))
  (mus, sigs, pi_logits)

/-- `numpy`'s `arr.max()` for a nonempty list (the empty case never occurs in
the source: `np.max` of an empty array raises). -/
def npMax : List ℝ → ℝ
  | [] => 0
  | x :: xs => xs.foldl max x

/-- Source: `softmax(w, t)`: divide by the temperature, subtract the maximum,
exponentiate, normalise by the sum. -/
noncomputable def softmax (w : List ℝ) (t : ℝ) : List ℝ :=
  let e1 := w.map (fun x => x / t)
  let m := npMax e1
  let e2 := e1.map (fun x => x - m)
  let e3 := e2.map Real.exp
  e3.map (fun x => x / e3.sum)

/-- The accumulation loop of `sample_from_categorical`: scan the entries in
index order, keeping a running sum; return the current index as soon as the
running sum reaches the draw `r`, and `-1` when the list is exhausted. -/
noncomputable def catLoop : List ℝ → ℝ → ℝ → ℕ → Int
  | [], _, _, _ => -1
  | d :: ds, acc, r, i => if r ≤ acc + d then Int.ofNat i else catLoop ds (acc + d) r (i + 1)

/-- Source: `sample_from_categorical(dist)` with the uniform draw
`r = np.random.rand(1)` passed explicitly: cumulative-sum (inverse-CDF)
selection, `-1` on failure. -/
noncomputable def sample_from_categorical (dist : List ℝ) (r : ℝ) : Int :=
  catLoop dist 0 r 0

/-- Cumulative sum of the first `i+1` entries of `dist`
(`dist[0] + ... + dist[i]`). -/
def cumSum (dist : List ℝ) (i : ℕ) : ℝ := (dist.take (i + 1)).sum

/-- A draw from `np.random.multivariate_normal(mean, diag(covDiag))` given the
underlying iid standard normal draws `z`: with a diagonal covariance matrix the
sample is `mean_i + sqrt(covDiag_i) * z_i` in each dimension (the diagonal
entries of the matrix argument are the per-dimension variances). -/
noncomputable def mvnDiagSample : List ℝ → List ℝ → List ℝ → List ℝ
  | m :: ms, c :: cs, z :: zs => (m + Real.sqrt c * z) :: mvnDiagSample ms cs zs
  | _, _, _ => []

/-- Source: `sample_from_output(params, output_dim, num_mixes, temp,
sigma_temp)`, with the categorical draw `r` and the standard normal draws `z`
passed explicitly.  `cov_matrix = np.identity(output_dim) * sig_vector` is the
diagonal matrix whose diagonal is `sig_vector`, so the covariance handed to
`np.random.multivariate_normal` is `diag(sig_vector)` (not its square). -/
noncomputable def sample_from_output (params : List ℝ) (output_dim num_mixes : ℕ)
    (temp sigma_temp : ℝ) (r : ℝ) (z : List ℝ) : List ℝ :=
  let s := split_mixture_params params output_dim num_mixes
  let pis := softmax s.2.2 temp
  let m : Int := sample_from_categorical pis r
  let mus_vector := pySlice s.1 (m * (output_dim : Int)) ((m + 1) * (output_dim : Int))
  let sig_vector :=
    (pySlice s.2.1 (m * (output_dim : Int)) ((m + 1) * (output_dim : Int))).map
      (fun x => x * sigma_temp)
  mvnDiagSample mus_vector sig_vector z

/-- Log-density of the 1-D normal with mean `mu` and standard deviation `sig`
at `y`. -/
noncomputable def gauss1LogPdf (mu sig y : ℝ) : ℝ :=
  -((y - mu) ^ 2) / (2 * sig ^ 2) - Real.log sig - Real.log (Real.sqrt (2 * Real.pi))

/-- Log-density of `tfd.MultivariateNormalDiag(loc=mu, scale_diag=sig)` at `y`:
the sum of the per-dimension 1-D normal log-densities (`scale_diag` holds the
standard deviations). -/
noncomputable def mvnDiagLogPdf : List ℝ → List ℝ → List ℝ → ℝ
  | m :: ms, s :: ss, y :: ys => gauss1LogPdf m s y + mvnDiagLogPdf ms ss ys
  | _, _, _ => 0

/-- Per-row log-likelihood built by the loss closure of
`get_mixture_loss_func`: split the row into `out_mu`, `out_sigma`, `out_pi`
(`tf.split` with sizes `[K*D, K*D, K]`), group means and scales into K blocks
of D, take `tfd.Categorical(logits=out_pi)` (probabilities = softmax of the
logits) and the K `tfd.MultivariateNormalDiag` components, and return
`tfd.Mixture(...).log_prob(target)`, the log of the weight-density sum. -/
noncomputable def mixtureLogProb (output_dim num_mixes : ℕ) (row target : List ℝ) : ℝ :=
  let mus := row.take (num_mixes * output_dim)
  let sigs := (row.drop (num_mixes * output_dim)).take (num_mixes * output_dim)
  let logits := ((row.drop (num_mixes * output_dim)).drop (num_mixes * output_dim)).take num_mixes
  let ws := softmax logits 1
  Real.log (((List.range num_mixes).map (fun k =>
    ws.getD k 0 *
      Real.exp (mvnDiagLogPdf ((mus.drop (k * output_dim)).take output_dim)
        ((sigs.drop (k * output_dim)).take output_dim) target))).sum)

/-- The loss of `get_mixture_loss_func` after the reshape to rows: the batch is
the list of (prediction row, target row) pairs, each row's log-likelihood is
negated, and `tf.reduce_mean` averages (sum divided by the row count). -/
noncomputable def mixture_loss (output_dim num_mixes : ℕ)
    (y_true y_pred : List (List ℝ)) : ℝ :=
  let rows := y_pred.zip y_true
  ((rows.map (fun p => -(mixtureLogProb output_dim num_mixes p.1 p.2))).sum) /
    (rows.length : ℝ)

/-- Shannon entropy of a probability vector. -/
noncomputable def shannonEntropy (p : List ℝ) : ℝ :=
  -((p.map (fun x => x * Real.log x)).sum)

/-! ## Helper lemmas on Python slicing -/

theorem pyIdx_natCast (n k : ℕ) : pyIdx n (k : Int) = min k n := by
  simp [pyIdx]

theorem pyIdx_negNat (n k : ℕ) (hk : 1 ≤ k) : pyIdx n (-(k : Int)) = n - k := by
  have h1 : (-(k : Int)) < 0 := by omega
  simp only [pyIdx, if_pos h1]
  omega

/-! ## C7: positivity of the scale activation -/

/-- C7: for every real input `x`, `elu x > -1`, and
`elu_plus_one_plus_epsilon x` is strictly greater than the fixed epsilon and
strictly positive. -/
theorem elu_plus_one_plus_epsilon_pos (x : ℝ) :
    -1 < elu x ∧ kerasEpsilon < elu_plus_one_plus_epsilon x ∧
      0 < elu_plus_one_plus_epsilon x := by
  have heps : (0 : ℝ) < kerasEpsilon := by norm_num [kerasEpsilon]
  have helu : -1 < elu x := by
    unfold elu
    split
    · linarith
    · have := Real.exp_pos x
      linarith
  refine ⟨helu, ?_, ?_⟩ <;> unfold elu_plus_one_plus_epsilon <;> linarith

/-! ## C2: the parameter split and its round trip -/

/-- The three slices of `split_mixture_params` in `take`/`drop` form, for any
input whose length is at least `2*K*D` (no exact-length requirement: the
source never checks the length). -/
theorem split_mixture_params_eq (params : List ℝ) (D K : ℕ) (hK : 1 ≤ K)
    (hlen : 2 * K * D ≤ params.length) :
    split_mixture_params params D K =
      (params.take (K * D), (params.drop (K * D)).take (K * D),
        params.drop (params.length - K)) := by
  have h2 : 2 * K * D = K * D + K * D := by ring
  have hKD : K * D ≤ params.length := by omega
  unfold split_mixture_params pySlice pySliceFrom
  have hc1 : ((K : Int) * (D : Int)) = ((K * D : ℕ) : Int) := by push_cast; ring
  have hc2 : ((2 : Int) * (K : Int) * (D : Int)) = ((2 * K * D : ℕ) : Int) := by
    push_cast; ring
  rw [hc1, hc2, pyIdx_natCast, pyIdx_natCast, pyIdx_negNat _ _ hK]
  have h0 : pyIdx params.length 0 = 0 := by simp [pyIdx]
  rw [h0, List.drop_zero, min_eq_left hKD, min_eq_left hlen,
    List.drop_take (2 * K * D) (K * D) params]
  simp only [Prod.mk.injEq]
  refine ⟨trivial, ?_, trivial⟩
  rw [h2]
  congr 1
  omega

/-- C2: on a parameter vector of length exactly `2*K*D + K` (with `D, K ≥ 1`),
`split_mixture_params` returns the first `K*D` entries, the next `K*D`
entries, and the final `K` entries, and concatenating the three parts
reproduces the input exactly. -/
theorem split_mixture_params_roundtrip (params : List ℝ) (D K : ℕ)
    (hD : 1 ≤ D) (hK : 1 ≤ K) (hlen : params.length = 2 * K * D + K) :
    (split_mixture_params params D K).1 = params.take (K * D) ∧
    (split_mixture_params params D K).2.1 = (params.drop (K * D)).take (K * D) ∧
    (split_mixture_params params D K).2.2 = params.drop (2 * K * D) ∧
    (split_mixture_params params D K).1 ++ ((split_mixture_params params D K).2.1 ++
      (split_mixture_params params D K).2.2) = params := by
  have heq := split_mixture_params_eq params D K hK (by omega)
  have hdropeq : params.length - K = 2 * K * D := by omega
  rw [hdropeq] at heq
  refine ⟨by rw [heq], by rw [heq], by rw [heq], ?_⟩
  rw [heq]
  show params.take (K * D) ++ ((params.drop (K * D)).take (K * D) ++
    params.drop (2 * K * D)) = params
  have h2 : 2 * K * D = K * D + K * D := by ring
  rw [h2, ← List.drop_drop, List.take_append_drop, List.take_append_drop]

/-- Witness for C2 at `D = K = 1`, `params = [1, 2, 3]`. -/
theorem split_mixture_params_roundtrip_witness :
    (1 ≤ 1 ∧ ([(1 : ℝ), 2, 3]).length = 2 * 1 * 1 + 1) ∧
    ((split_mixture_params [1, 2, 3] 1 1).1 = ([(1 : ℝ), 2, 3]).take (1 * 1) ∧
      (split_mixture_params [1, 2, 3] 1 1).2.1 =
        (([(1 : ℝ), 2, 3]).drop (1 * 1)).take (1 * 1) ∧
      (split_mixture_params [1, 2, 3] 1 1).2.2 = ([(1 : ℝ), 2, 3]).drop (2 * 1 * 1) ∧
      (split_mixture_params [1, 2, 3] 1 1).1 ++ ((split_mixture_params [1, 2, 3] 1 1).2.1 ++
        (split_mixture_params [1, 2, 3] 1 1).2.2) = [(1 : ℝ), 2, 3]) :=
  ⟨⟨le_refl 1, by simp⟩,
    split_mixture_params_roundtrip [1, 2, 3] 1 1 (le_refl 1) (le_refl 1) (by simp)⟩

/-! ## C6: no length validation in the split -/

/-- C6 counterexample: the input `[1, 2]` has the wrong length for
`D = K = 1` (2 instead of 3), yet `split_mixture_params` signals nothing: it
returns the ordinary triple `([1], [2], [2])` (its slices simply overlap). -/
theorem split_mixture_params_no_shape_check :
    ([(1 : ℝ), 2]).length ≠ 2 * 1 * 1 + 1 ∧
      split_mixture_params [(1 : ℝ), 2] 1 1 = ([1], [2], [2]) := by
  constructor
  · simp
  · simp [split_mixture_params, pySlice, pySliceFrom, pyIdx]

/-- C6 amended: `split_mixture_params` is a pure total function that performs
no length validation: for an input of any length it returns the three slices,
clamped to the available entries (so their lengths are `min (K*D) n`,
`min (2*K*D) n - min (K*D) n` and `min K n` for input length `n`), rather than
signalling a `ShapeError`. -/
theorem split_mixture_params_total_lengths (params : List ℝ) (D K : ℕ) (hK : 1 ≤ K) :
    (split_mixture_params params D K).1.length = min (K * D) params.length ∧
    (split_mixture_params params D K).2.1.length =
      min (2 * K * D) params.length - min (K * D) params.length ∧
    (split_mixture_params params D K).2.2.length = min K params.length := by
  unfold split_mixture_params pySlice pySliceFrom
  have hc1 : ((K : Int) * (D : Int)) = ((K * D : ℕ) : Int) := by push_cast; ring
  have hc2 : ((2 : Int) * (K : Int) * (D : Int)) = ((2 * K * D : ℕ) : Int) := by
    push_cast; ring
  rw [hc1, hc2, pyIdx_natCast, pyIdx_natCast, pyIdx_negNat _ _ hK]
  have h0 : pyIdx params.length 0 = 0 := by simp [pyIdx]
  rw [h0]
  refine ⟨?_, ?_, ?_⟩ <;> simp <;> omega

/-! ## C8: the loss is the mean of the per-row negated log-likelihoods -/

/-- C8: the loss over a single row is the negated row log-likelihood, and a
batch of `B ≥ 1` identical prediction/target rows has the same loss as the
single row (the mean of `B` identical values). -/
theorem mixture_loss_batch_of_identical_rows (output_dim num_mixes : ℕ)
    (p t : List ℝ) (B : ℕ) (hB : 1 ≤ B) :
    mixture_loss output_dim num_mixes (List.replicate B t) (List.replicate B p) =
      mixture_loss output_dim num_mixes [t] [p] ∧
    mixture_loss output_dim num_mixes [t] [p] =
      -(mixtureLogProb output_dim num_mixes p t) := by
  have hBne : (B : ℝ) ≠ 0 := Nat.cast_ne_zero.mpr (by omega)
  constructor
  · simp only [mixture_loss, List.zip_replicate, min_self, List.map_replicate,
      List.sum_replicate, List.length_replicate, nsmul_eq_mul]
    simp only [List.zip_cons_cons, List.zip_nil_right, List.map_cons, List.map_nil,
      List.sum_cons, List.sum_nil, List.length_cons, List.length_nil]
    field_simp
    ring
  · simp only [mixture_loss, List.zip_cons_cons, List.zip_nil_right, List.map_cons,
      List.map_nil, List.sum_cons, List.sum_nil, List.length_cons, List.length_nil]
    simp

/-- Witness for C8 at `D = K = 1`, `B = 2`, prediction row `[0, 1, 0]`,
target row `[0]`. -/
theorem mixture_loss_batch_of_identical_rows_witness :
    1 ≤ 2 ∧
    (mixture_loss 1 1 (List.replicate 2 [(0 : ℝ)]) (List.replicate 2 [(0 : ℝ), 1, 0]) =
        mixture_loss 1 1 [[(0 : ℝ)]] [[(0 : ℝ), 1, 0]] ∧
      mixture_loss 1 1 [[(0 : ℝ)]] [[(0 : ℝ), 1, 0]] =
        -(mixtureLogProb 1 1 [(0 : ℝ), 1, 0] [(0 : ℝ)])) :=
  ⟨by omega, mixture_loss_batch_of_identical_rows 1 1 [0, 1, 0] [0] 2 (by omega)⟩

/-! ## C1: what `sample_from_output` actually draws -/

/-- C1 evaluation: at `params = [0, 4, 0]` (`D = K = 1`, so `mu = 0`,
`sigma = 4`), both temperatures 1, categorical draw `1/2` and standard normal
draw `z = 1`, the code returns `[0 + sqrt 4 * 1] = [2]`: the matrix
`np.identity(1) * sig_vector = [[4]]` is used as the covariance, so the
per-dimension standard deviation is `sqrt(sigma) = 2`, not
`sigma_temp * sigma = 4` as the claim (and the loss function of the same
file, which takes `sigs` as `scale_diag`) prescribes. -/
theorem sample_from_output_variance_bug :
    sample_from_output [0, 4, 0] 1 1 1 1 (1/2) [1] = [2] ∧
      sample_from_output [0, 4, 0] 1 1 1 1 (1/2) [1] ≠ [0 + (1 * 4) * 1] := by
  have hsm : softmax [(0 : ℝ)] 1 = [1] := by
    simp [softmax, npMax, Real.exp_zero]
  have hsqrt : Real.sqrt 4 = 2 := by
    rw [show (4 : ℝ) = 2 ^ 2 by norm_num, Real.sqrt_sq (by norm_num : (0 : ℝ) ≤ 2)]
  have hc : ((2 : ℝ))⁻¹ ≤ 1 := by norm_num
  have hsplit : split_mixture_params [0, 4, 0] 1 1 = ([0], [4], [0]) := by
    simp [split_mixture_params, pySlice, pySliceFrom, pyIdx]
  have heval : sample_from_output [0, 4, 0] 1 1 1 1 (1/2) [1] = [2] := by
    simp [sample_from_output, hsplit, hsm, sample_from_categorical, catLoop, hc,
      pySlice, pyIdx, mvnDiagSample, hsqrt]
  refine ⟨heval, ?_⟩
  rw [heval]
  intro hcon
  have : (2 : ℝ) = 0 + 1 * 4 * 1 := List.head_eq_of_cons_eq hcon
  norm_num at this

/-! ## C10: the sentinel index `-1` is never checked downstream -/

/-- C10: whenever the categorical step of `sample_from_output` returns the
failure sentinel `-1`, the function proceeds anyway: the selected mean slice
`mus[-D:0]` is empty, and the final result is the empty list — its length is
not `output_dim`, so the Gaussian draw over `output_dim` dimensions is
ill-formed rather than a reported failure. -/
theorem sample_from_output_ignores_sentinel (params : List ℝ)
    (output_dim num_mixes : ℕ) (temp sigma_temp r : ℝ) (z : List ℝ)
    (hD : 1 ≤ output_dim)
    (h : sample_from_categorical
        (softmax (split_mixture_params params output_dim num_mixes).2.2 temp) r = -1) :
    pySlice (split_mixture_params params output_dim num_mixes).1
        (-1 * (output_dim : Int)) ((-1 + 1) * (output_dim : Int)) = [] ∧
    sample_from_output params output_dim num_mixes temp sigma_temp r z = [] ∧
    (sample_from_output params output_dim num_mixes temp sigma_temp r z).length ≠
      output_dim := by
  have hz : ((-1 + 1) * (output_dim : Int)) = 0 := by ring
  have hmus : ∀ (l : List ℝ),
      pySlice l (-1 * (output_dim : Int)) ((-1 + 1) * (output_dim : Int)) = [] := by
    intro l
    simp [pySlice, hz, pyIdx]
  have hmain : sample_from_output params output_dim num_mixes temp sigma_temp r z = [] := by
    simp only [sample_from_output, h]
    rw [show pySlice (split_mixture_params params output_dim num_mixes).1
      ((-1) * (output_dim : Int)) (((-1) + 1) * (output_dim : Int)) = [] from hmus _]
    simp [mvnDiagSample]
  refine ⟨hmus _, hmain, ?_⟩
  rw [hmain]
  simp
  omega

/-- Witness for C10: `params = [0, 4, 0]`, `D = K = 1`, both temperatures 1,
and a draw `r = 2` on which the cumulative walk over `softmax [0] 1 = [1]`
fails and yields the sentinel `-1`. -/
theorem sample_from_output_ignores_sentinel_witness :
    (1 ≤ 1 ∧
      sample_from_categorical
        (softmax (split_mixture_params [0, 4, 0] 1 1).2.2 1) 2 = -1) ∧
    (pySlice (split_mixture_params [0, 4, 0] 1 1).1
        (-1 * (1 : Int)) ((-1 + 1) * (1 : Int)) = [] ∧
      sample_from_output [0, 4, 0] 1 1 1 1 2 [1] = [] ∧
      (sample_from_output [0, 4, 0] 1 1 1 1 2 [1]).length ≠ 1) := by
  have hsplit : split_mixture_params [0, 4, 0] 1 1 = ([0], [4], [0]) := by
    simp [split_mixture_params, pySlice, pySliceFrom, pyIdx]
  have hsm : softmax [(0 : ℝ)] 1 = [1] := by
    simp [softmax, npMax, Real.exp_zero]
  have hfail : sample_from_categorical
      (softmax (split_mixture_params [0, 4, 0] 1 1).2.2 1) 2 = -1 := by
    rw [hsplit]
    show sample_from_categorical (softmax [(0 : ℝ)] 1) 2 = -1
    rw [hsm]
    have hnc : ¬ ((2 : ℝ) ≤ 0 + 1) := by norm_num
    simp [sample_from_categorical, catLoop, hnc]
  exact ⟨⟨le_refl 1, hfail⟩,
    sample_from_output_ignores_sentinel [0, 4, 0] 1 1 1 1 2 [1] (le_refl 1) hfail⟩

/-! ## C3: the softmax formula and its probability-vector invariants -/

theorem list_sum_exp_pos (l : List ℝ) (hl : l ≠ []) : 0 < (l.map Real.exp).sum := by
  apply List.sum_pos
  · intro x hx
    obtain ⟨y, _, rfl⟩ := List.mem_map.mp hx
    exact Real.exp_pos y
  · simpa using hl

theorem list_sum_map_div (l : List ℝ) (f : ℝ → ℝ) (c : ℝ) :
    (l.map (fun x => f x / c)).sum = (l.map f).sum / c := by
  induction l with
  | nil => simp
  | cons a as ih => simp [ih, add_div]

/-- C3: for a nonempty logit vector `w` and temperature `t > 0`, `softmax w t`
is exactly `exp(w_i/t - max_j(w_j/t))` normalised by the sum of those
exponentials, every entry is non-negative, and the entries sum to 1. -/
theorem softmax_spec (w : List ℝ) (t : ℝ) (hw : w ≠ []) (ht : 0 < t) :
    softmax w t =
      w.map (fun x => Real.exp (x / t - npMax (w.map (fun y => y / t))) /
        (w.map (fun y => Real.exp (y / t - npMax (w.map (fun z => z / t))))).sum) ∧
    (∀ p ∈ softmax w t, 0 ≤ p) ∧ (softmax w t).sum = 1 := by
  have hform : softmax w t =
      w.map (fun x => Real.exp (x / t - npMax (w.map (fun y => y / t))) /
        (w.map (fun y => Real.exp (y / t - npMax (w.map (fun z => z / t))))).sum) := by
    simp [softmax, List.map_map, Function.comp_def]
  have hS : 0 < (w.map (fun y => Real.exp (y / t - npMax (w.map (fun z => z / t))))).sum := by
    have h := list_sum_exp_pos
      ((w.map (fun y => y / t)).map (fun y => y - npMax (w.map (fun z => z / t))))
      (by simp [hw])
    simpa [List.map_map, Function.comp_def] using h
  refine ⟨hform, ?_, ?_⟩
  · intro p hp
    rw [hform] at hp
    obtain ⟨x, _, rfl⟩ := List.mem_map.mp hp
    exact le_of_lt (div_pos (Real.exp_pos _) hS)
  · rw [hform, list_sum_map_div, div_self (ne_of_gt hS)]

/-- Witness for C3 at `w = [0]`, `t = 1`. -/
theorem softmax_spec_witness :
    (([(0 : ℝ)] : List ℝ) ≠ [] ∧ (0 : ℝ) < 1) ∧
    (softmax [(0 : ℝ)] 1 =
      ([(0 : ℝ)]).map (fun x => Real.exp (x / 1 - npMax (([(0 : ℝ)]).map (fun y => y / 1))) /
        (([(0 : ℝ)]).map
          (fun y => Real.exp (y / 1 - npMax (([(0 : ℝ)]).map (fun z => z / 1))))).sum) ∧
      (∀ p ∈ softmax [(0 : ℝ)] 1, 0 ≤ p) ∧ (softmax [(0 : ℝ)] 1).sum = 1) :=
  ⟨⟨by simp, by norm_num⟩, softmax_spec [0] 1 (by simp) (by norm_num)⟩

/-! ## C4 and C5: the cumulative-sum categorical sampler -/

theorem catLoop_finds (dist : List ℝ) (acc r : ℝ) (i : ℕ)
    (h : ∃ k, k < dist.length ∧ r ≤ acc + (dist.take (k + 1)).sum) :
    ∃ k, k < dist.length ∧ catLoop dist acc r i = Int.ofNat (i + k) ∧
      r ≤ acc + (dist.take (k + 1)).sum ∧
      ∀ j < k, acc + (dist.take (j + 1)).sum < r := by
  induction dist generalizing acc i with
  | nil =>
    obtain ⟨k, hk, _⟩ := h
    simp at hk
  | cons d ds ih =>
    by_cases hc : r ≤ acc + d
    · exact ⟨0, by simp, by simp [catLoop, hc], by simpa using hc, by omega⟩
    · push_neg at hc
      have h' : ∃ k, k < ds.length ∧ r ≤ (acc + d) + (ds.take (k + 1)).sum := by
        obtain ⟨k, hk, hsum⟩ := h
        cases k with
        | zero =>
          simp at hsum
          linarith
        | succ k' =>
          refine ⟨k', by simpa using hk, ?_⟩
          have ht : ((d :: ds).take (k' + 1 + 1)).sum = d + (ds.take (k' + 1)).sum := by
            simp
          rw [ht] at hsum
          linarith
      obtain ⟨k, hk, heq, hge, hlt⟩ := ih (acc + d) (i + 1) h'
      refine ⟨k + 1, by simpa using hk, ?_, ?_, ?_⟩
      · have hstep : catLoop (d :: ds) acc r i = catLoop ds (acc + d) r (i + 1) := by
          simp [catLoop, not_le.mpr hc]
        rw [hstep, heq]
        congr 1
        omega
      · have ht : ((d :: ds).take (k + 1 + 1)).sum = d + (ds.take (k + 1)).sum := by simp
        rw [ht]
        linarith
      · intro j hj
        cases j with
        | zero =>
          simpa using hc
        | succ j' =>
          have hlt' := hlt j' (by omega)
          have ht : ((d :: ds).take (j' + 1 + 1)).sum = d + (ds.take (j' + 1)).sum := by simp
          rw [ht]
          linarith

/-- C4: on a probability distribution and a draw `r ∈ [0,1)`,
`sample_from_categorical` (a deterministic function of the distribution and
the draw) returns the smallest index whose cumulative sum reaches `r`; in
particular on the one-entry distribution `[1.0]` it returns index 0 for every
such `r`. -/
theorem sample_from_categorical_invCDF (dist : List ℝ) (r : ℝ)
    (hnn : ∀ x ∈ dist, 0 ≤ x) (hsum : dist.sum = 1) (hr0 : 0 ≤ r) (hr1 : r < 1) :
    (∃ i, i < dist.length ∧ sample_from_categorical dist r = Int.ofNat i ∧
      r ≤ cumSum dist i ∧ ∀ j < i, cumSum dist j < r) ∧
    sample_from_categorical [(1 : ℝ)] r = Int.ofNat 0 := by
  constructor
  · have hne : dist ≠ [] := by
      intro hcon
      rw [hcon] at hsum
      simp at hsum
    have hex : ∃ k, k < dist.length ∧ r ≤ 0 + (dist.take (k + 1)).sum := by
      refine ⟨dist.length - 1, ?_, ?_⟩
      · have := List.length_pos.mpr hne
        omega
      · have hlen : dist.length - 1 + 1 = dist.length := by
          have := List.length_pos.mpr hne
          omega
        rw [hlen, List.take_length, hsum]
        linarith
    obtain ⟨k, hk, heq, hge, hlt⟩ := catLoop_finds dist 0 r 0 hex
    refine ⟨k, hk, ?_, ?_, ?_⟩
    · simpa [sample_from_categorical] using heq
    · unfold cumSum
      linarith
    · intro j hj
      have := hlt j hj
      unfold cumSum
      linarith
  · have h1 : r ≤ (1 : ℝ) := by linarith
    simp [sample_from_categorical, catLoop, h1]

/-- Witness for C4 at `dist = [1]`, `r = 0`. -/
theorem sample_from_categorical_invCDF_witness :
    ((∀ x ∈ ([(1 : ℝ)] : List ℝ), 0 ≤ x) ∧ ([(1 : ℝ)] : List ℝ).sum = 1 ∧
      (0 : ℝ) ≤ 0 ∧ (0 : ℝ) < 1) ∧
    ((∃ i, i < ([(1 : ℝ)] : List ℝ).length ∧
        sample_from_categorical [(1 : ℝ)] 0 = Int.ofNat i ∧
        (0 : ℝ) ≤ cumSum [(1 : ℝ)] i ∧ ∀ j < i, cumSum [(1 : ℝ)] j < 0) ∧
      sample_from_categorical [(1 : ℝ)] 0 = Int.ofNat 0) :=
  ⟨⟨by intro x hx; simp at hx; simp [hx], by simp, le_refl 0, by norm_num⟩,
    sample_from_categorical_invCDF [1] 0 (by intro x hx; simp at hx; simp [hx])
      (by simp) (le_refl 0) (by norm_num)⟩

theorem catLoop_fails (dist : List ℝ) (acc r : ℝ) (i : ℕ)
    (h : ∀ k, k < dist.length → acc + (dist.take (k + 1)).sum < r) :
    catLoop dist acc r i = -1 := by
  induction dist generalizing acc i with
  | nil => rfl
  | cons d ds ih =>
    have h0 := h 0 (by simp)
    simp at h0
    have hstep : catLoop (d :: ds) acc r i = catLoop ds (acc + d) r (i + 1) := by
      simp [catLoop, not_le.mpr h0]
    rw [hstep]
    apply ih
    intro k hk
    have hk' := h (k + 1) (by simpa using hk)
    have ht : ((d :: ds).take (k + 1 + 1)).sum = d + (ds.take (k + 1)).sum := by simp
    rw [ht] at hk'
    linarith

/-- C5: when no index satisfies the cumulative-sum condition — every
cumulative sum of `dist` stays below the draw `r` — `sample_from_categorical`
does not fail hard: it returns the sentinel `-1` (the source also logs the
event before returning). -/
theorem sample_from_categorical_sentinel (dist : List ℝ) (r : ℝ)
    (h : ∀ i, i < dist.length → cumSum dist i < r) :
    sample_from_categorical dist r = -1 := by
  apply catLoop_fails
  intro k hk
  have := h k hk
  unfold cumSum at this
  linarith

/-- Witness for C5 at `dist = [1/2]`, `r = 7/8`. -/
theorem sample_from_categorical_sentinel_witness :
    (∀ i, i < ([(1 : ℝ)/2] : List ℝ).length → cumSum [(1 : ℝ)/2] i < 7/8) ∧
      sample_from_categorical [(1 : ℝ)/2] (7/8) = -1 := by
  have h : ∀ i, i < ([(1 : ℝ)/2] : List ℝ).length → cumSum [(1 : ℝ)/2] i < 7/8 := by
    intro i hi
    simp at hi
    subst hi
    norm_num [cumSum]
  exact ⟨h, sample_from_categorical_sentinel _ _ h⟩

/-! ## C9: softmax entropy is strictly increasing in the temperature

The analysis works at inverse temperature `β = 1/t` with the partition sum
`Z(β) = Σ exp(β w_i)`, the weighted sum `S(β) = Σ w_i exp(β w_i)`, and the
entropy `H = log Z - β S / Z`; the Gibbs inequality bounds
`log Z(β2) - log Z(β1)` from below, and a Chebyshev-style symmetrisation shows
the mean `S/Z` is strictly monotone in `β` for non-constant logits. -/

noncomputable def pZ (n : ℕ) (f : Fin n → ℝ) (β : ℝ) : ℝ :=
  ∑ i, Real.exp (β * f i)

noncomputable def pS (n : ℕ) (f : Fin n → ℝ) (β : ℝ) : ℝ :=
  ∑ i, f i * Real.exp (β * f i)

noncomputable def pH (n : ℕ) (f : Fin n → ℝ) (β : ℝ) : ℝ :=
  Real.log (pZ n f β) - β * pS n f β / pZ n f β

theorem pZ_pos (n : ℕ) (f : Fin n → ℝ) (β : ℝ) (hn : 0 < n) : 0 < pZ n f β := by
  have : Nonempty (Fin n) := ⟨⟨0, hn⟩⟩
  exact Finset.sum_pos (fun i _ => Real.exp_pos _) Finset.univ_nonempty

theorem gibbs_bound (n : ℕ) (f : Fin n → ℝ) (hn : 0 < n) (β1 β2 : ℝ) :
    (β2 - β1) * (pS n f β1 / pZ n f β1) ≤
      Real.log (pZ n f β2) - Real.log (pZ n f β1) := by
  have hZ1 := pZ_pos n f β1 hn
  have hZ2 := pZ_pos n f β2 hn
  have hsum1 : ∑ i : Fin n, Real.exp (β1 * f i) / pZ n f β1 = 1 := by
    rw [← Finset.sum_div]
    have h : (∑ i : Fin n, Real.exp (β1 * f i)) = pZ n f β1 := rfl
    rw [h, div_self (ne_of_gt hZ1)]
  have hsum2 : ∑ i : Fin n, Real.exp (β2 * f i) / pZ n f β2 = 1 := by
    rw [← Finset.sum_div]
    have h : (∑ i : Fin n, Real.exp (β2 * f i)) = pZ n f β2 := rfl
    rw [h, div_self (ne_of_gt hZ2)]
  have key : ∑ i : Fin n, (Real.exp (β1 * f i) / pZ n f β1) *
      (((β2 - β1) * f i) + (Real.log (pZ n f β1) - Real.log (pZ n f β2))) ≤ 0 := by
    have hle : ∀ i ∈ (Finset.univ : Finset (Fin n)),
        (Real.exp (β1 * f i) / pZ n f β1) *
          (((β2 - β1) * f i) + (Real.log (pZ n f β1) - Real.log (pZ n f β2))) ≤
        Real.exp (β2 * f i) / pZ n f β2 - Real.exp (β1 * f i) / pZ n f β1 := by
      intro i _
      have hp0 : 0 < Real.exp (β1 * f i) / pZ n f β1 := div_pos (Real.exp_pos _) hZ1
      have hq0 : 0 < Real.exp (β2 * f i) / pZ n f β2 := div_pos (Real.exp_pos _) hZ2
      have hlog : Real.log ((Real.exp (β2 * f i) / pZ n f β2) /
            (Real.exp (β1 * f i) / pZ n f β1)) ≤
          (Real.exp (β2 * f i) / pZ n f β2) / (Real.exp (β1 * f i) / pZ n f β1) - 1 :=
        Real.log_le_sub_one_of_pos (div_pos hq0 hp0)
      have hlogeq : Real.log ((Real.exp (β2 * f i) / pZ n f β2) /
            (Real.exp (β1 * f i) / pZ n f β1)) =
          ((β2 - β1) * f i) + (Real.log (pZ n f β1) - Real.log (pZ n f β2)) := by
        rw [Real.log_div (ne_of_gt hq0) (ne_of_gt hp0),
          Real.log_div (Real.exp_ne_zero _) (ne_of_gt hZ2),
          Real.log_div (Real.exp_ne_zero _) (ne_of_gt hZ1),
          Real.log_exp, Real.log_exp]
        ring
      rw [← hlogeq]
      have hmul := mul_le_mul_of_nonneg_left hlog (le_of_lt hp0)
      have hfield : (Real.exp (β1 * f i) / pZ n f β1) *
          ((Real.exp (β2 * f i) / pZ n f β2) / (Real.exp (β1 * f i) / pZ n f β1) - 1) =
          Real.exp (β2 * f i) / pZ n f β2 - Real.exp (β1 * f i) / pZ n f β1 := by
        field_simp
        ring
      linarith [hmul, hfield.ge, hfield.le]
    calc ∑ i : Fin n, (Real.exp (β1 * f i) / pZ n f β1) *
        (((β2 - β1) * f i) + (Real.log (pZ n f β1) - Real.log (pZ n f β2)))
        ≤ ∑ i : Fin n, (Real.exp (β2 * f i) / pZ n f β2 -
            Real.exp (β1 * f i) / pZ n f β1) := Finset.sum_le_sum hle
      _ = 0 := by rw [Finset.sum_sub_distrib, hsum1, hsum2]; ring
  have hexpand : ∑ i : Fin n, (Real.exp (β1 * f i) / pZ n f β1) *
      (((β2 - β1) * f i) + (Real.log (pZ n f β1) - Real.log (pZ n f β2)))
      = (β2 - β1) * (pS n f β1 / pZ n f β1) +
        (Real.log (pZ n f β1) - Real.log (pZ n f β2)) := by
    have hterm : ∀ i : Fin n, (Real.exp (β1 * f i) / pZ n f β1) *
        (((β2 - β1) * f i) + (Real.log (pZ n f β1) - Real.log (pZ n f β2)))
        = (β2 - β1) * (f i * Real.exp (β1 * f i)) / pZ n f β1 +
          (Real.log (pZ n f β1) - Real.log (pZ n f β2)) *
            (Real.exp (β1 * f i) / pZ n f β1) := by
      intro i
      ring
    rw [Finset.sum_congr rfl (fun i _ => hterm i), Finset.sum_add_distrib]
    congr 1
    · rw [← Finset.sum_div, ← Finset.mul_sum]
      have h : (∑ i : Fin n, f i * Real.exp (β1 * f i)) = pS n f β1 := rfl
      rw [h, mul_div_assoc]
    · rw [← Finset.mul_sum, hsum1, mul_one]
  rw [hexpand] at key
  linarith

theorem pair_term_nonneg (β1 β2 a b : ℝ) (hb : β2 < β1) :
    0 ≤ (a - b) * (Real.exp (β1 * a) * Real.exp (β2 * b) -
      Real.exp (β1 * b) * Real.exp (β2 * a)) := by
  rcases le_or_lt a b with h | h
  · have hexp : β1 * a + β2 * b ≤ β1 * b + β2 * a := by nlinarith
    have hE : Real.exp (β1 * a) * Real.exp (β2 * b) ≤
        Real.exp (β1 * b) * Real.exp (β2 * a) := by
      rw [← Real.exp_add, ← Real.exp_add]
      exact Real.exp_le_exp.mpr hexp
    nlinarith [mul_nonneg (sub_nonneg.mpr h) (sub_nonneg.mpr hE)]
  · have hexp : β1 * b + β2 * a ≤ β1 * a + β2 * b := by nlinarith
    have hE : Real.exp (β1 * b) * Real.exp (β2 * a) ≤
        Real.exp (β1 * a) * Real.exp (β2 * b) := by
      rw [← Real.exp_add, ← Real.exp_add]
      exact Real.exp_le_exp.mpr hexp
    nlinarith [mul_nonneg (sub_nonneg.mpr h.le) (sub_nonneg.mpr hE)]

theorem pair_term_pos (β1 β2 a b : ℝ) (hb : β2 < β1) (hab : a ≠ b) :
    0 < (a - b) * (Real.exp (β1 * a) * Real.exp (β2 * b) -
      Real.exp (β1 * b) * Real.exp (β2 * a)) := by
  rcases lt_or_gt_of_ne hab with h | h
  · have hexp : β1 * a + β2 * b < β1 * b + β2 * a := by nlinarith
    have hE : Real.exp (β1 * a) * Real.exp (β2 * b) <
        Real.exp (β1 * b) * Real.exp (β2 * a) := by
      rw [← Real.exp_add, ← Real.exp_add]
      exact Real.exp_lt_exp.mpr hexp
    nlinarith [mul_pos (sub_pos.mpr h) (sub_pos.mpr hE)]
  · have hexp : β1 * b + β2 * a < β1 * a + β2 * b := by nlinarith
    have hE : Real.exp (β1 * b) * Real.exp (β2 * a) <
        Real.exp (β1 * a) * Real.exp (β2 * b) := by
      rw [← Real.exp_add, ← Real.exp_add]
      exact Real.exp_lt_exp.mpr hexp
    nlinarith [mul_pos (sub_pos.mpr h) (sub_pos.mpr hE)]

theorem mean_strictMono (n : ℕ) (f : Fin n → ℝ) (β1 β2 : ℝ) (hb : β2 < β1)
    (hne : ∃ i j : Fin n, f i ≠ f j) :
    pS n f β2 / pZ n f β2 < pS n f β1 / pZ n f β1 := by
  have hn : 0 < n := by
    obtain ⟨i, _, _⟩ := hne
    exact i.pos
  have hZ1 := pZ_pos n f β1 hn
  have hZ2 := pZ_pos n f β2 hn
  rw [div_lt_div_iff hZ2 hZ1]
  have hswap : (∑ i : Fin n, ∑ j : Fin n,
      (f i - f j) * (Real.exp (β1 * f i) * Real.exp (β2 * f j)))
      = ∑ i : Fin n, ∑ j : Fin n,
        (f j - f i) * (Real.exp (β1 * f j) * Real.exp (β2 * f i)) := Finset.sum_comm
  have hpair : ∀ i j : Fin n, (0:ℝ) ≤
      (f i - f j) * (Real.exp (β1 * f i) * Real.exp (β2 * f j)) +
        (f j - f i) * (Real.exp (β1 * f j) * Real.exp (β2 * f i)) := by
    intro i j
    have hr : (f i - f j) * (Real.exp (β1 * f i) * Real.exp (β2 * f j)) +
        (f j - f i) * (Real.exp (β1 * f j) * Real.exp (β2 * f i))
        = (f i - f j) * (Real.exp (β1 * f i) * Real.exp (β2 * f j) -
          Real.exp (β1 * f j) * Real.exp (β2 * f i)) := by ring
    rw [hr]
    exact pair_term_nonneg β1 β2 (f i) (f j) hb
  have hdouble : (0:ℝ) < ∑ i : Fin n, ∑ j : Fin n,
      ((f i - f j) * (Real.exp (β1 * f i) * Real.exp (β2 * f j)) +
        (f j - f i) * (Real.exp (β1 * f j) * Real.exp (β2 * f i))) := by
    obtain ⟨i0, j0, hij⟩ := hne
    apply Finset.sum_pos'
    · intro i _
      exact Finset.sum_nonneg (fun j _ => hpair i j)
    · refine ⟨i0, Finset.mem_univ i0, Finset.sum_pos' (fun j _ => hpair i0 j)
        ⟨j0, Finset.mem_univ j0, ?_⟩⟩
      have hr : (f i0 - f j0) * (Real.exp (β1 * f i0) * Real.exp (β2 * f j0)) +
          (f j0 - f i0) * (Real.exp (β1 * f j0) * Real.exp (β2 * f i0))
          = (f i0 - f j0) * (Real.exp (β1 * f i0) * Real.exp (β2 * f j0) -
            Real.exp (β1 * f j0) * Real.exp (β2 * f i0)) := by ring
      rw [hr]
      exact pair_term_pos β1 β2 (f i0) (f j0) hb hij
  have hsplit : ∑ i : Fin n, ∑ j : Fin n,
      ((f i - f j) * (Real.exp (β1 * f i) * Real.exp (β2 * f j)) +
        (f j - f i) * (Real.exp (β1 * f j) * Real.exp (β2 * f i)))
      = (∑ i : Fin n, ∑ j : Fin n,
          (f i - f j) * (Real.exp (β1 * f i) * Real.exp (β2 * f j))) +
        ∑ i : Fin n, ∑ j : Fin n,
          (f j - f i) * (Real.exp (β1 * f j) * Real.exp (β2 * f i)) := by
    rw [← Finset.sum_add_distrib]
    exact Finset.sum_congr rfl (fun i _ => Finset.sum_add_distrib)
  rw [hsplit, ← hswap] at hdouble
  have hT : (0:ℝ) < ∑ i : Fin n, ∑ j : Fin n,
      (f i - f j) * (Real.exp (β1 * f i) * Real.exp (β2 * f j)) := by linarith
  have hexpand : pS n f β1 * pZ n f β2 - pS n f β2 * pZ n f β1
      = ∑ i : Fin n, ∑ j : Fin n,
        (f i - f j) * (Real.exp (β1 * f i) * Real.exp (β2 * f j)) := by
    unfold pS pZ
    rw [Finset.sum_mul_sum, Finset.sum_mul_sum]
    rw [show (∑ i : Fin n, ∑ j : Fin n,
        (f i * Real.exp (β2 * f i)) * Real.exp (β1 * f j))
        = ∑ i : Fin n, ∑ j : Fin n,
          (f j * Real.exp (β2 * f j)) * Real.exp (β1 * f i) from Finset.sum_comm]
    rw [← Finset.sum_sub_distrib]
    refine Finset.sum_congr rfl (fun i _ => ?_)
    rw [← Finset.sum_sub_distrib]
    refine Finset.sum_congr rfl (fun j _ => ?_)
    ring
  linarith

theorem pH_strictAnti (n : ℕ) (f : Fin n → ℝ) (β1 β2 : ℝ) (h2 : 0 < β2)
    (h21 : β2 < β1) (hne : ∃ i j : Fin n, f i ≠ f j) :
    pH n f β1 < pH n f β2 := by
  have hn : 0 < n := by
    obtain ⟨i, _, _⟩ := hne
    exact i.pos
  have hg := gibbs_bound n f hn β1 β2
  have hc := mean_strictMono n f β1 β2 h21 hne
  have hc2 : β2 * (pS n f β2 / pZ n f β2) < β2 * (pS n f β1 / pZ n f β1) :=
    mul_lt_mul_of_pos_left hc h2
  have hexp : (β2 - β1) * (pS n f β1 / pZ n f β1)
      = β2 * (pS n f β1 / pZ n f β1) - β1 * (pS n f β1 / pZ n f β1) := by ring
  rw [hexp] at hg
  unfold pH
  rw [mul_div_assoc, mul_div_assoc]
  linarith

theorem listMapSum (l : List ℝ) (g : ℝ → ℝ) :
    (l.map g).sum = ∑ i : Fin l.length, g (l.get i) := by
  conv_lhs => rw [← List.ofFn_get l, List.map_ofFn, List.sum_ofFn]
  exact Finset.sum_congr rfl (fun i _ => rfl)

/-- The closed form of `softmax` obtained by composing its four maps. -/
theorem softmax_closed_form (w : List ℝ) (t : ℝ) :
    softmax w t =
      w.map (fun x => Real.exp (x / t - npMax (w.map (fun y => y / t))) /
        (w.map (fun y => Real.exp (y / t - npMax (w.map (fun z => z / t))))).sum) := by
  simp [softmax, List.map_map, Function.comp_def]

/-- The subtracted maximum cancels: the softmax entries equal the plain
normalised exponentials. -/
theorem softmax_unshifted (w : List ℝ) (t : ℝ) (hw : w ≠ []) :
    softmax w t =
      w.map (fun x => Real.exp (x / t) / (w.map (fun y => Real.exp (y / t))).sum) := by
  have hSraw : 0 < (w.map (fun y => Real.exp (y / t))).sum := by
    have h := list_sum_exp_pos (w.map (fun y => y / t)) (by simp [hw])
    simpa [List.map_map, Function.comp_def] using h
  rw [softmax_closed_form]
  have hfun : (fun y => Real.exp (y / t - npMax (w.map (fun z => z / t))))
      = fun y => Real.exp (y / t) / Real.exp (npMax (w.map (fun z => z / t))) := by
    funext y
    rw [Real.exp_sub]
  have hsum : (w.map (fun y =>
        Real.exp (y / t - npMax (w.map (fun z => z / t))))).sum
      = (w.map (fun y => Real.exp (y / t))).sum /
          Real.exp (npMax (w.map (fun z => z / t))) := by
    rw [hfun, list_sum_map_div]
  refine List.map_congr_left (fun x hx => ?_)
  rw [hsum, Real.exp_sub]
  field_simp

/-- Entropy of the temperature softmax written at inverse temperature
`β = t⁻¹` over the logits read off by position. -/
theorem shannonEntropy_softmax (w : List ℝ) (t : ℝ) (hw : w ≠ []) (ht : 0 < t) :
    shannonEntropy (softmax w t) = pH w.length w.get t⁻¹ := by
  have hSraw : 0 < (w.map (fun y => Real.exp (y / t))).sum := by
    have h := list_sum_exp_pos (w.map (fun y => y / t)) (by simp [hw])
    simpa [List.map_map, Function.comp_def] using h
  have hZ : (w.map (fun y => Real.exp (y / t))).sum = pZ w.length w.get t⁻¹ := by
    rw [listMapSum]
    exact Finset.sum_congr rfl (fun i _ => by rw [div_eq_inv_mul])
  have hZpos : 0 < pZ w.length w.get t⁻¹ := by
    rw [← hZ]
    exact hSraw
  rw [softmax_unshifted w t hw, shannonEntropy, List.map_map, listMapSum]
  have hterm : ∀ i : Fin w.length,
      ((fun x => x * Real.log x) ∘
        (fun x => Real.exp (x / t) / (w.map (fun y => Real.exp (y / t))).sum)) (w.get i)
      = t⁻¹ * (w.get i * Real.exp (t⁻¹ * w.get i)) / pZ w.length w.get t⁻¹
        - Real.log (pZ w.length w.get t⁻¹) *
            (Real.exp (t⁻¹ * w.get i) / pZ w.length w.get t⁻¹) := by
    intro i
    simp only [Function.comp_apply]
    rw [hZ, div_eq_inv_mul (w.get i) t,
      Real.log_div (Real.exp_ne_zero _) (ne_of_gt hZpos), Real.log_exp]
    ring
  rw [Finset.sum_congr rfl (fun i _ => hterm i), Finset.sum_sub_distrib,
    ← Finset.sum_div, ← Finset.mul_sum, ← Finset.mul_sum, ← Finset.sum_div]
  have hS' : (∑ i : Fin w.length, w.get i * Real.exp (t⁻¹ * w.get i))
      = pS w.length w.get t⁻¹ := rfl
  have hZ' : (∑ i : Fin w.length, Real.exp (t⁻¹ * w.get i))
      = pZ w.length w.get t⁻¹ := rfl
  rw [hS', hZ', div_self (ne_of_gt hZpos), mul_one]
  unfold pH
  ring

/-- C9: for a non-uniform logit vector (two entries differ), the Shannon
entropy of `softmax w t` is strictly increasing in the temperature:
`0 < t1 < t2` implies `H(softmax w t1) < H(softmax w t2)`. -/
theorem softmax_entropy_strictMono (w : List ℝ) (t1 t2 : ℝ)
    (hne : ∃ a ∈ w, ∃ b ∈ w, a ≠ b) (h1 : 0 < t1) (h12 : t1 < t2) :
    shannonEntropy (softmax w t1) < shannonEntropy (softmax w t2) := by
  have hw : w ≠ [] := by
    rintro rfl
    obtain ⟨a, ha, _⟩ := hne
    simp at ha
  have h2 : 0 < t2 := h1.trans h12
  rw [shannonEntropy_softmax w t1 hw h1, shannonEntropy_softmax w t2 hw h2]
  apply pH_strictAnti
  · exact inv_pos.mpr h2
  · exact (one_div t2) ▸ (one_div t1) ▸ one_div_lt_one_div_of_lt h1 h12
  · obtain ⟨a, ha, b, hb, hab⟩ := hne
    obtain ⟨i, hi⟩ := List.mem_iff_get.mp ha
    obtain ⟨j, hj⟩ := List.mem_iff_get.mp hb
    exact ⟨i, j, by rw [hi, hj]; exact hab⟩

/-- Witness for C9 at `w = [0, 1]`, `t1 = 1`, `t2 = 2`. -/
theorem softmax_entropy_strictMono_witness :
    ((∃ a ∈ ([(0 : ℝ), 1] : List ℝ), ∃ b ∈ ([(0 : ℝ), 1] : List ℝ), a ≠ b) ∧
      (0 : ℝ) < 1 ∧ (1 : ℝ) < 2) ∧
    shannonEntropy (softmax [(0 : ℝ), 1] 1) < shannonEntropy (softmax [(0 : ℝ), 1] 2) :=
  ⟨⟨⟨0, by simp, 1, by simp, by norm_num⟩, by norm_num, by norm_num⟩,
    softmax_entropy_strictMono [0, 1] 1 2 ⟨0, by simp, 1, by simp, by norm_num⟩
      (by norm_num) (by norm_num)⟩

/-- Witness for the amended C6 at `K = 1`, `D = 1`, on the short input
`[1, 2]`. -/
theorem split_mixture_params_total_lengths_witness :
    1 ≤ 1 ∧
    ((split_mixture_params [(1 : ℝ), 2] 1 1).1.length = min (1 * 1) ([(1 : ℝ), 2]).length ∧
      (split_mixture_params [(1 : ℝ), 2] 1 1).2.1.length =
        min (2 * 1 * 1) ([(1 : ℝ), 2]).length - min (1 * 1) ([(1 : ℝ), 2]).length ∧
      (split_mixture_params [(1 : ℝ), 2] 1 1).2.2.length = min 1 ([(1 : ℝ), 2]).length) :=
  ⟨le_refl 1, split_mixture_params_total_lengths [1, 2] 1 1 (le_refl 1)⟩
